import Mathlib

/-!
Shallow embedding of `src/workspace.rs` of the neorg-dirman repository,
together with proofs about its workspace registry.

The Rust module defines `Workspace`, `WorkspaceManager`, the error type
`WorkspaceNotFound`, two constructors (`from_single_workspace`, `new`) and
four methods (`get_workspace`, `set_current_workspace`,
`get_current_workspace`, `add_workspace`).  The `HashMap<String, Workspace>`
field is embedded as an association list in which `hinsert` overwrites any
existing binding for the key, matching `HashMap::insert`, and `hget` looks a
key up, matching `HashMap::get`.  `PathBuf` is opaque to the module and is
embedded as a plain string.  Methods taking `&mut self` are embedded in
state-passing style, returning the method result together with the updated
manager.
-/

/-- A workspace record: a `name` and a filesystem `path`
(the path is opaque to the module; `PathBuf` embedded as a string). -/
structure Workspace where
  name : String
  path : String
deriving DecidableEq, Repr

/-- The single error kind of the module, carrying the offending name. -/
structure WorkspaceNotFound where
  workspace : String
deriving DecidableEq, Repr

/-- Association-list embedding of `HashMap<String, Workspace>`. -/
abbrev HMap := List (String × Workspace)

/-- `HashMap::get`: the binding for key `k`, if present. -/
def hget (m : HMap) (k : String) : Option Workspace :=
  (m.find? (fun p => p.1 == k)).map (fun p => p.2)

/-- `HashMap::insert`: bind `k` to `v`, overwriting any existing binding. -/
def hinsert (m : HMap) (k : String) (v : Workspace) : HMap :=
  (k, v) :: m.filter (fun p => p.1 != k)

/-- The manager: the registry map plus the name of the current workspace. -/
structure WorkspaceManager where
  workspaces : HMap
  current_workspace : String
deriving DecidableEq, Repr

namespace WorkspaceManager

/-- `WorkspaceManager::from_single_workspace`: one workspace, made both the
sole entry and the current selection. -/
def from_single_workspace (workspace : Workspace) : WorkspaceManager :=
  { current_workspace := workspace.name,
    workspaces := [(workspace.name, workspace)] }

/-- `WorkspaceManager::new`: build the registry from a list, keyed by name
(`collect` performs repeated inserts, so a later duplicate overwrites an
earlier one); fail when no list element is named `default_workspace`. -/
def new (workspaces : List Workspace) (default_workspace : String) :
    Except WorkspaceNotFound WorkspaceManager :=
  if ! workspaces.any (fun w => w.name == default_workspace) then
    Except.error { workspace := default_workspace }
  else
    Except.ok
      { current_workspace := default_workspace,
        workspaces := workspaces.foldl (fun m w => hinsert m w.name w) [] }

/-- `WorkspaceManager::get_workspace`: pure lookup by name (`&self`). -/
def get_workspace (self : WorkspaceManager) (name : String) : Option Workspace :=
  hget self.workspaces name

/-- `WorkspaceManager::set_current_workspace` (`&mut self`): returned as the
`Result` together with the post-call manager state. -/
def set_current_workspace (self : WorkspaceManager) (name : String) :
    Except WorkspaceNotFound Unit × WorkspaceManager :=
  if (hget self.workspaces name).isNone then
    (Except.error { workspace := name }, self)
  else
    (Except.ok (), { self with current_workspace := name })

/-- `WorkspaceManager::get_current_workspace` (`&self`): the lookup that the
Rust code unwraps; `none` models the `unwrap` panic branch. -/
def get_current_workspace (self : WorkspaceManager) : Option Workspace :=
  hget self.workspaces self.current_workspace

/-- `WorkspaceManager::add_workspace` (`&mut self`): insert or overwrite the
entry keyed by the workspace's name. -/
def add_workspace (self : WorkspaceManager) (workspace : Workspace) :
    WorkspaceManager :=
  { self with workspaces := hinsert self.workspaces workspace.name workspace }

end WorkspaceManager

/-- One public method call on a manager. -/
inductive Op where
  | getWorkspace (name : String)
  | setCurrentWorkspace (name : String)
  | getCurrentWorkspace
  | addWorkspace (w : Workspace)
deriving Repr

/-- What one method call returns. -/
inductive OpResult where
  | lookup (r : Option Workspace)
  | setResult (r : Except WorkspaceNotFound Unit)
  | current (r : Option Workspace)
  | unitResult
deriving Repr

/-- Run one public method call: its result and the post-call state.
Methods taking `&self` cannot change the state. -/
def runOp (m : WorkspaceManager) : Op → OpResult × WorkspaceManager
  | .getWorkspace name => (.lookup (m.get_workspace name), m)
  | .setCurrentWorkspace name =>
      (.setResult (m.set_current_workspace name).1, (m.set_current_workspace name).2)
  | .getCurrentWorkspace => (.current m.get_current_workspace, m)
  | .addWorkspace w => (.unitResult, m.add_workspace w)

/-- Run a sequence of public method calls, keeping the final state. -/
def runOps (m : WorkspaceManager) (ops : List Op) : WorkspaceManager :=
  ops.foldl (fun s op => (runOp s op).2) m

/-- States produced by a public constructor. -/
inductive Initial : WorkspaceManager → Prop where
  | single (w : Workspace) : Initial (WorkspaceManager.from_single_workspace w)
  | ofNew (ws : List Workspace) (d : String) (m : WorkspaceManager)
      (h : WorkspaceManager.new ws d = Except.ok m) : Initial m

/-- States reachable from a public constructor by public method calls. -/
def Reachable (m : WorkspaceManager) : Prop :=
  ∃ m₀ ops, Initial m₀ ∧ runOps m₀ ops = m

/-- The manager invariant: every key of the registry equals the name of the
workspace it binds, and the current workspace is a key of the registry. -/
def ManagerInv (m : WorkspaceManager) : Prop :=
  (∀ p ∈ m.workspaces, p.1 = p.2.name) ∧
    (hget m.workspaces m.current_workspace).isSome

/-- Sample record used to evaluate the theorems at concrete inputs. -/
def wsA : Workspace := { name := "a", path := "/p1" }

/-- Second sample record, with a different name. -/
def wsB : Workspace := { name := "b", path := "/p2" }

/-- Third sample record, sharing its name with `wsA`. -/
def wsA2 : Workspace := { name := "a", path := "/p3" }

/-- A concrete manager produced by a public constructor. -/
def sampleManager : WorkspaceManager := WorkspaceManager.from_single_workspace wsA

/-- The manager `new [wsA, wsB] "a"` builds. -/
def mAB : WorkspaceManager :=
  { current_workspace := "a", workspaces := [("b", wsB), ("a", wsA)] }

/-- The manager `new [wsA, wsA2] "a"` builds: the duplicate name "a" is bound
to the later record. -/
def mDup : WorkspaceManager :=
  { current_workspace := "a", workspaces := [("a", wsA2)] }

lemma find?_filter_ne (m : HMap) (k k' : String) (h : k' ≠ k) :
    (m.filter (fun p => p.1 != k)).find? (fun p => p.1 == k') =
      m.find? (fun p => p.1 == k') := by
  induction m with
  | nil => rfl
  | cons p rest ih =>
      by_cases hp : p.1 = k
      · have hb : (p.1 != k) = false := by simp [hp]
        have h2 : (p.1 == k') = false := by
          refine beq_eq_false_iff_ne.mpr ?_
          rw [hp]
          exact fun hc => h hc.symm
        simp only [List.filter_cons, hb, Bool.false_eq_true, if_false, ih]
        simp [List.find?_cons, h2]
      · have hb : (p.1 != k) = true := by simp [hp]
        simp only [List.filter_cons, hb, if_true]
        by_cases hq : p.1 = k'
        · have h2 : (p.1 == k') = true := beq_iff_eq.mpr hq
          simp [List.find?_cons, h2]
        · have h2 : (p.1 == k') = false := beq_eq_false_iff_ne.mpr hq
          simp [List.find?_cons, h2, ih]

lemma hget_hinsert (m : HMap) (k k' : String) (v : Workspace) :
    hget (hinsert m k v) k' = if k' = k then some v else hget m k' := by
  unfold hget hinsert
  by_cases h : k' = k
  · simp [h]
  · have hk : (k == k') = false := beq_eq_false_iff_ne.mpr (fun hc => h hc.symm)
    simp [h, List.find?_cons_of_neg, hk, find?_filter_ne m k k' h]

lemma hget_foldl (ws : List Workspace) (acc : HMap) (k : String) :
    hget (ws.foldl (fun m w => hinsert m w.name w) acc) k =
      Option.or (ws.reverse.find? (fun w => w.name == k)) (hget acc k) := by
  induction ws generalizing acc with
  | nil => simp
  | cons w rest ih =>
      simp only [List.foldl_cons, List.reverse_cons, List.find?_append, ih,
        hget_hinsert]
      by_cases h : k = w.name
      · have hb : (w.name == k) = true := beq_iff_eq.mpr h.symm
        simp [List.find?, hb, Option.or_assoc, h]
      · have hb : (w.name == k) = false :=
          beq_eq_false_iff_ne.mpr (fun hc => h hc.symm)
        simp [List.find?, hb, Option.or_assoc, h]

lemma hget_new_map (ws : List Workspace) (k : String) :
    hget (ws.foldl (fun m w => hinsert m w.name w) []) k =
      ws.reverse.find? (fun w => w.name == k) := by
  rw [hget_foldl]
  simp [hget]

lemma mem_hinsert {p : String × Workspace} {m : HMap} {k : String}
    {v : Workspace} (h : p ∈ hinsert m k v) : p = (k, v) ∨ p ∈ m := by
  rcases List.mem_cons.mp h with h1 | h1
  · exact Or.inl h1
  · exact Or.inr (List.mem_of_mem_filter h1)

lemma keys_consistent_foldl (ws : List Workspace) (acc : HMap)
    (hacc : ∀ p ∈ acc, p.1 = p.2.name) :
    ∀ p ∈ ws.foldl (fun m w => hinsert m w.name w) acc, p.1 = p.2.name := by
  induction ws generalizing acc with
  | nil => exact hacc
  | cons w rest ih =>
      refine ih (hinsert acc w.name w) ?_
      intro p hp
      rcases mem_hinsert hp with h1 | h1
      · rw [h1]
      · exact hacc p h1

lemma hget_name {m : HMap} (hc : ∀ p ∈ m, p.1 = p.2.name) {k : String}
    {w : Workspace} (h : hget m k = some w) : w.name = k := by
  unfold hget at h
  cases hf : m.find? (fun p => p.1 == k) with
  | none => rw [hf] at h; simp at h
  | some p =>
      rw [hf] at h
      simp only [Option.map_some'] at h
      have hpk := List.find?_some hf
      have h1 : p.1 = k := by simpa using hpk
      have h2 := hc p (List.mem_of_find?_eq_some hf)
      have hw : p.2 = w := by injection h
      rw [← hw, ← h2, h1]

lemma inv_from_single (w : Workspace) :
    ManagerInv (WorkspaceManager.from_single_workspace w) := by
  constructor
  · intro p hp
    rw [List.mem_singleton.mp hp]
  · simp [WorkspaceManager.from_single_workspace, hget, List.find?]

lemma inv_new {ws : List Workspace} {d : String} {m : WorkspaceManager}
    (h : WorkspaceManager.new ws d = Except.ok m) : ManagerInv m := by
  unfold WorkspaceManager.new at h
  cases hc : ws.any (fun w => w.name == d) with
  | false => rw [hc] at h; simp at h
  | true =>
      rw [hc] at h
      simp only [Bool.not_true, Bool.false_eq_true, if_false,
        Except.ok.injEq] at h
      subst h
      constructor
      · exact keys_consistent_foldl ws [] (by intro p hp; cases hp)
      · simp only [hget_new_map, List.find?_isSome]
        rcases List.any_eq_true.mp hc with ⟨w, hw, hname⟩
        exact ⟨w, List.mem_reverse.mpr hw, hname⟩

lemma inv_set {m : WorkspaceManager} (hm : ManagerInv m) (name : String) :
    ManagerInv (m.set_current_workspace name).2 := by
  unfold WorkspaceManager.set_current_workspace
  cases ho : hget m.workspaces name with
  | none => simpa [ho] using hm
  | some w =>
      simp only [ho, Option.isNone_some, Bool.false_eq_true, if_false]
      exact ⟨hm.1, by simp [ho]⟩

lemma inv_add {m : WorkspaceManager} (hm : ManagerInv m) (w : Workspace) :
    ManagerInv (m.add_workspace w) := by
  constructor
  · intro p hp
    simp only [WorkspaceManager.add_workspace] at hp
    rcases mem_hinsert hp with h1 | h1
    · rw [h1]
    · exact hm.1 p h1
  · simp only [WorkspaceManager.add_workspace, hget_hinsert]
    by_cases h : m.current_workspace = w.name
    · simp [h]
    · simpa [h] using hm.2

lemma inv_runOp {m : WorkspaceManager} (hm : ManagerInv m) (op : Op) :
    ManagerInv (runOp m op).2 := by
  cases op with
  | getWorkspace name => exact hm
  | setCurrentWorkspace name => exact inv_set hm name
  | getCurrentWorkspace => exact hm
  | addWorkspace w => exact inv_add hm w

lemma inv_runOps {m : WorkspaceManager} (hm : ManagerInv m) (ops : List Op) :
    ManagerInv (runOps m ops) := by
  induction ops generalizing m with
  | nil => exact hm
  | cons op rest ih => exact ih (inv_runOp hm op)

lemma inv_initial {m : WorkspaceManager} (h : Initial m) : ManagerInv m := by
  cases h with
  | single w => exact inv_from_single w
  | ofNew ws d m hok => exact inv_new hok

lemma reachable_inv {m : WorkspaceManager} (h : Reachable m) : ManagerInv m := by
  rcases h with ⟨m₀, ops, h0, hrun⟩
  rw [← hrun]
  exact inv_runOps (inv_initial h0) ops

lemma new_any_true {ws : List Workspace} {d : String}
    (hc : ws.any (fun w => w.name == d) = true) :
    WorkspaceManager.new ws d =
      Except.ok
        { current_workspace := d,
          workspaces := ws.foldl (fun m w => hinsert m w.name w) [] } := by
  unfold WorkspaceManager.new
  rw [hc]
  simp

lemma new_any_false {ws : List Workspace} {d : String}
    (hc : ws.any (fun w => w.name == d) = false) :
    WorkspaceManager.new ws d = Except.error { workspace := d } := by
  unfold WorkspaceManager.new
  rw [hc]
  simp

lemma new_ok_inversion {ws : List Workspace} {d : String} {m : WorkspaceManager}
    (h : WorkspaceManager.new ws d = Except.ok m) :
    m = { current_workspace := d,
          workspaces := ws.foldl (fun m w => hinsert m w.name w) [] } := by
  cases hc : ws.any (fun w => w.name == d) with
  | false => rw [new_any_false hc] at h; cases h
  | true =>
      rw [new_any_true hc] at h
      exact (Except.ok.injEq _ _ ▸ h).symm

/-- Claim C1: in every manager state reachable via the public constructors
(`from_single_workspace`, successful `new`) and any sequence of public
operations, `current_workspace` is a key present in the `workspaces`
mapping. -/
theorem claim_C1_current_workspace_is_key (m : WorkspaceManager)
    (h : Reachable m) :
    ∃ w, hget m.workspaces m.current_workspace = some w :=
  Option.isSome_iff_exists.mp (reachable_inv h).2

theorem claim_C1_witness :
    Reachable sampleManager ∧
      ∃ w, hget sampleManager.workspaces sampleManager.current_workspace =
        some w := by
  have hr : Reachable sampleManager :=
    ⟨sampleManager, [], Initial.single wsA, rfl⟩
  exact ⟨hr, claim_C1_current_workspace_is_key sampleManager hr⟩

/-- Claim C2: `set_current_workspace name` on an absent name returns the
error `WorkspaceNotFound name` and leaves the whole manager state unchanged;
on a present name it succeeds and changes exactly `current_workspace` to
`name`, nothing else. -/
theorem claim_C2_set_current_workspace_spec (m : WorkspaceManager)
    (name : String) :
    (hget m.workspaces name = none →
      m.set_current_workspace name = (Except.error { workspace := name }, m)) ∧
    (∀ w, hget m.workspaces name = some w →
      m.set_current_workspace name =
        (Except.ok (), { m with current_workspace := name })) := by
  constructor
  · intro h
    simp [WorkspaceManager.set_current_workspace, h]
  · intro w h
    simp [WorkspaceManager.set_current_workspace, h]

theorem claim_C2_witness :
    (hget sampleManager.workspaces "b" = none ∧
      sampleManager.set_current_workspace "b" =
        (Except.error { workspace := "b" }, sampleManager)) ∧
    (hget sampleManager.workspaces "a" = some wsA ∧
      sampleManager.set_current_workspace "a" =
        (Except.ok (), { sampleManager with current_workspace := "a" })) := by
  refine ⟨⟨rfl, ?_⟩, ⟨rfl, ?_⟩⟩
  · exact (claim_C2_set_current_workspace_spec sampleManager "b").1 rfl
  · exact (claim_C2_set_current_workspace_spec sampleManager "a").2 wsA rfl

/-- Claim C3: `new ws d` fails with `WorkspaceNotFound d` exactly when no
element of `ws` is named `d`; on success, `current_workspace` is `d` and the
mapping indexes every input record by its name (each key is bound to the
last input record carrying that name). -/
theorem claim_C3_new_spec (ws : List Workspace) (d : String) :
    (WorkspaceManager.new ws d = Except.error { workspace := d } ↔
      ∀ w ∈ ws, w.name ≠ d) ∧
    (∀ m, WorkspaceManager.new ws d = Except.ok m →
      m.current_workspace = d ∧
        (∀ k, hget m.workspaces k = ws.reverse.find? (fun w => w.name == k)) ∧
        ∀ w ∈ ws, ∃ w', hget m.workspaces w.name = some w' ∧
          w'.name = w.name) := by
  constructor
  · constructor
    · intro h w hw hname
      have hc : ws.any (fun w => w.name == d) = true :=
        List.any_eq_true.mpr ⟨w, hw, beq_iff_eq.mpr hname⟩
      rw [new_any_true hc] at h
      cases h
    · intro h
      refine new_any_false (List.any_eq_false.mpr ?_)
      intro w hw
      simp [h w hw]
  · intro m h
    have hm := new_ok_inversion h
    subst hm
    refine ⟨rfl, fun k => hget_new_map ws k, ?_⟩
    intro w hw
    have hsome : (ws.reverse.find? (fun v => v.name == w.name)).isSome :=
      List.find?_isSome.mpr ⟨w, List.mem_reverse.mpr hw, beq_self_eq_true _⟩
    rcases Option.isSome_iff_exists.mp hsome with ⟨w', hw'⟩
    refine ⟨w', ?_, ?_⟩
    · rw [hget_new_map ws w.name]
      exact hw'
    · have hpred := List.find?_some hw'
      simpa using hpred

theorem claim_C3_witness :
    (WorkspaceManager.new [wsA] "c" = Except.error { workspace := "c" }) ∧
      (WorkspaceManager.new [wsA, wsB] "a" = Except.ok mAB) ∧
      mAB.current_workspace = "a" ∧
      hget mAB.workspaces "b" = some wsB ∧
      (∃ w', hget mAB.workspaces wsB.name = some w' ∧ w'.name = wsB.name) := by
  have herr := (claim_C3_new_spec [wsA] "c").1.mpr (by decide)
  have hok : WorkspaceManager.new [wsA, wsB] "a" = Except.ok mAB := rfl
  have h := (claim_C3_new_spec [wsA, wsB] "a").2 mAB hok
  refine ⟨herr, hok, h.1, ?_, h.2.2 wsB (by simp)⟩
  rw [h.2.1 "b"]
  rfl

/-- Claim C4: when two input records share a name, `new` binds that name to
the later record of the sequence, and the default-name existence check runs
over the original sequence, so an overwritten name still makes `new`
succeed. -/
theorem claim_C4_duplicate_names (ws : List Workspace) (d : String) :
    (∀ m, WorkspaceManager.new ws d = Except.ok m →
      ∀ l₁ w l₂, ws = l₁ ++ w :: l₂ → (∀ w' ∈ l₂, w'.name ≠ w.name) →
        hget m.workspaces w.name = some w) ∧
    ((∃ w ∈ ws, w.name = d) →
      ∃ m, WorkspaceManager.new ws d = Except.ok m) := by
  constructor
  · intro m h l₁ w l₂ hsplit hl₂
    have hm := new_ok_inversion h
    subst hm
    rw [hget_new_map ws w.name, hsplit]
    have hrev : (l₁ ++ w :: l₂).reverse = l₂.reverse ++ [w] ++ l₁.reverse := by
      simp
    rw [hrev, List.find?_append, List.find?_append]
    have hnone : l₂.reverse.find? (fun v => v.name == w.name) = none := by
      refine List.find?_eq_none.mpr ?_
      intro v hv
      simp [hl₂ v (List.mem_reverse.mp hv)]
    rw [hnone]
    simp [List.find?_cons]
  · intro hex
    rcases hex with ⟨w, hw, hname⟩
    have hc : ws.any (fun v => v.name == d) = true :=
      List.any_eq_true.mpr ⟨w, hw, beq_iff_eq.mpr hname⟩
    exact ⟨_, new_any_true hc⟩

theorem claim_C4_witness :
    (WorkspaceManager.new [wsA, wsA2] "a" = Except.ok mDup ∧
      [wsA, wsA2] = [wsA] ++ wsA2 :: ([] : List Workspace) ∧
      (∀ w' ∈ ([] : List Workspace), w'.name ≠ wsA2.name) ∧
      hget mDup.workspaces wsA2.name = some wsA2) ∧
    ((∃ w ∈ [wsA, wsA2], w.name = "a") ∧
      ∃ m, WorkspaceManager.new [wsA, wsA2] "a" = Except.ok m) := by
  have hok : WorkspaceManager.new [wsA, wsA2] "a" = Except.ok mDup := rfl
  refine ⟨⟨hok, rfl, ?_, ?_⟩, ⟨⟨wsA, by simp, rfl⟩, ?_⟩⟩
  · intro w' hw'
    cases hw'
  · exact (claim_C4_duplicate_names [wsA, wsA2] "a").1 mDup hok [wsA] wsA2 []
      rfl (fun w' hw' => by cases hw')
  · exact (claim_C4_duplicate_names [wsA, wsA2] "a").2 ⟨wsA, by simp, rfl⟩

/-- Claim C5: on every reachable manager, `get_current_workspace` cannot
fail: the lookup that the Rust code unwraps is some record, and the method
returns exactly the record keyed by `current_workspace`. -/
theorem claim_C5_get_current_workspace_total (m : WorkspaceManager)
    (h : Reachable m) :
    m.get_current_workspace.isSome = true ∧
      m.get_current_workspace = hget m.workspaces m.current_workspace :=
  ⟨(reachable_inv h).2, rfl⟩

theorem claim_C5_witness :
    Reachable sampleManager ∧
      sampleManager.get_current_workspace.isSome = true ∧
      sampleManager.get_current_workspace =
        hget sampleManager.workspaces sampleManager.current_workspace := by
  have hr : Reachable sampleManager :=
    ⟨sampleManager, [], Initial.single wsA, rfl⟩
  exact ⟨hr, claim_C5_get_current_workspace_total sampleManager hr⟩

/-- Claim C6: `from_single_workspace w` always succeeds and yields a manager
whose mapping is exactly the one entry keyed by `w.name` holding `w`, and
whose current selection is the record `w`, so its name equals `w.name`. -/
theorem claim_C6_from_single_workspace (w : Workspace) :
    (WorkspaceManager.from_single_workspace w).workspaces = [(w.name, w)] ∧
      (WorkspaceManager.from_single_workspace w).current_workspace = w.name ∧
      (WorkspaceManager.from_single_workspace w).get_current_workspace =
        some w := by
  refine ⟨rfl, rfl, ?_⟩
  simp [WorkspaceManager.from_single_workspace,
    WorkspaceManager.get_current_workspace, hget, List.find?_cons]

/-- Claim C7: `add_workspace w` inserts or overwrites exactly the entry keyed
by `w.name`, leaves every other binding unchanged, never changes
`current_workspace`, and a subsequent `get_workspace w.name` returns the new
record. -/
theorem claim_C7_add_workspace_frame (m : WorkspaceManager) (w : Workspace) :
    hget (m.add_workspace w).workspaces w.name = some w ∧
      (∀ n, n ≠ w.name →
        hget (m.add_workspace w).workspaces n = hget m.workspaces n) ∧
      (m.add_workspace w).current_workspace = m.current_workspace ∧
      (m.add_workspace w).get_workspace w.name = some w := by
  refine ⟨?_, ?_, rfl, ?_⟩
  · simp [WorkspaceManager.add_workspace, hget_hinsert]
  · intro n hn
    simp [WorkspaceManager.add_workspace, hget_hinsert, hn]
  · simp [WorkspaceManager.add_workspace, WorkspaceManager.get_workspace,
      hget_hinsert]

theorem claim_C7_witness :
    hget (sampleManager.add_workspace wsB).workspaces wsB.name = some wsB ∧
      ("a" ≠ wsB.name ∧
        hget (sampleManager.add_workspace wsB).workspaces "a" =
          hget sampleManager.workspaces "a") ∧
      (sampleManager.add_workspace wsB).current_workspace =
        sampleManager.current_workspace ∧
      (sampleManager.add_workspace wsB).get_workspace wsB.name = some wsB := by
  have h := claim_C7_add_workspace_frame sampleManager wsB
  exact ⟨h.1, ⟨by decide, h.2.1 "a" (by decide)⟩, h.2.2.1, h.2.2.2⟩

/-- Claim C8: on a reachable manager, whenever `set_current_workspace n`
succeeds, a subsequent `get_current_workspace` returns a record whose name
equals `n`. -/
theorem claim_C8_set_then_get_current (m : WorkspaceManager) (n : String)
    (hr : Reachable m)
    (h : (m.set_current_workspace n).1 = Except.ok ()) :
    ∃ w, (m.set_current_workspace n).2.get_current_workspace = some w ∧
      w.name = n := by
  have hinv := reachable_inv hr
  cases ho : hget m.workspaces n with
  | none =>
      rw [show (m.set_current_workspace n).1 = Except.error { workspace := n }
        from by simp [WorkspaceManager.set_current_workspace, ho]] at h
      cases h
  | some w =>
      refine ⟨w, ?_, hget_name hinv.1 ho⟩
      simp [WorkspaceManager.set_current_workspace, ho,
        WorkspaceManager.get_current_workspace]

theorem claim_C8_witness :
    Reachable sampleManager ∧
      (sampleManager.set_current_workspace "a").1 = Except.ok () ∧
      ∃ w, (sampleManager.set_current_workspace "a").2.get_current_workspace =
        some w ∧ w.name = "a" := by
  have hr : Reachable sampleManager :=
    ⟨sampleManager, [], Initial.single wsA, rfl⟩
  exact ⟨hr, rfl, claim_C8_set_then_get_current sampleManager "a" hr rfl⟩

/-- Claim C9: `get_workspace` has no side effect (the post-call state equals
the pre-call state) and returns an optional value: the record keyed by the
queried name when that key is present, and `none` — never an error — when it
is absent. -/
theorem claim_C9_get_workspace_pure (m : WorkspaceManager) (name : String) :
    (runOp m (Op.getWorkspace name)).2 = m ∧
      (∀ w, hget m.workspaces name = some w →
        runOp m (Op.getWorkspace name) = (OpResult.lookup (some w), m)) ∧
      ((∀ p ∈ m.workspaces, p.1 ≠ name) →
        runOp m (Op.getWorkspace name) = (OpResult.lookup none, m)) := by
  refine ⟨rfl, ?_, ?_⟩
  · intro w h
    simp [runOp, WorkspaceManager.get_workspace, h]
  · intro h
    have hnone : hget m.workspaces name = none := by
      unfold hget
      rw [List.find?_eq_none.mpr ?_]
      · rfl
      · intro p hp
        simpa using h p hp
    simp [runOp, WorkspaceManager.get_workspace, hnone]

theorem claim_C9_witness :
    (runOp sampleManager (Op.getWorkspace "a")).2 = sampleManager ∧
      (hget sampleManager.workspaces "a" = some wsA ∧
        runOp sampleManager (Op.getWorkspace "a") =
          (OpResult.lookup (some wsA), sampleManager)) ∧
      ((∀ p ∈ sampleManager.workspaces, p.1 ≠ "b") ∧
        runOp sampleManager (Op.getWorkspace "b") =
          (OpResult.lookup none, sampleManager)) := by
  have h1 := claim_C9_get_workspace_pure sampleManager "a"
  have h2 := claim_C9_get_workspace_pure sampleManager "b"
  refine ⟨h1.1, ⟨rfl, h1.2.1 wsA rfl⟩, ⟨?_, h2.2.2 ?_⟩⟩
  · decide
  · decide

/-- Claim C10: on every reachable manager, each key of the mapping equals the
name of the record it binds; hence `get_workspace` only returns a record
named by the queried key, and `get_current_workspace` only returns a record
named `current_workspace`. -/
theorem claim_C10_key_name_consistency (m : WorkspaceManager)
    (h : Reachable m) :
    (∀ p ∈ m.workspaces, p.1 = p.2.name) ∧
      (∀ name w, m.get_workspace name = some w → w.name = name) ∧
      (∀ w, m.get_current_workspace = some w →
        w.name = m.current_workspace) := by
  have hinv := reachable_inv h
  refine ⟨hinv.1, ?_, ?_⟩
  · intro name w hw
    exact hget_name hinv.1 hw
  · intro w hw
    exact hget_name hinv.1 hw

theorem claim_C10_witness :
    Reachable sampleManager ∧
      (∀ p ∈ sampleManager.workspaces, p.1 = p.2.name) ∧
      wsA.name = "a" := by
  have hr : Reachable sampleManager :=
    ⟨sampleManager, [], Initial.single wsA, rfl⟩
  have h := claim_C10_key_name_consistency sampleManager hr
  exact ⟨hr, h.1, h.2.1 "a" wsA rfl⟩
